import Mathlib

/-!
Shallow embedding of the email-db command-line tool (the most evolved
iteration of the store, `EmailDB` together with `filterEmail` and
`pageAll`).  JavaScript objects keyed by strings are modelled as
association lists in key-insertion order, JavaScript `Set`s as
duplicate-free lists in insertion order, and the ambient clock used by
the cold-days gate (`moment().diff(ts, 'days')`) as an explicit function
parameter `diffDays`.  Machine input/output (file reading, JSON parsing,
the provider transport) is modelled by passing the produced values
directly, as the store only consumes those values.
-/

/-! ## Data model -/

inductive Status where
  | dirty
  | clean
  | broken
deriving DecidableEq, Repr

/-- In-memory record for one address.  `status` is optional because a
legacy persisted record carries no status field and `load` leaves it
absent in that case. -/
structure Record where
  tags : List String
  locale : Option String := none
  status : Option Status := none
  lastDelivered : Option String := none
deriving DecidableEq, Repr

/-- The directory: address-to-record mapping, as a JS object (association
list in key-insertion order; keys are unique in any real JS object). -/
abbrev DB := List (String × Record)

/-- Source `obj[k]`: first entry with the key, if any. -/
def objGet : DB → String → Option Record
  | [], _ => none
  | (k, r) :: t, e => if k = e then some r else objGet t e

/-- Source `obj[k] = v`: overwrite in place if the key exists, append otherwise. -/
def objSet : DB → String → Record → DB
  | [], e, r => [(e, r)]
  | (k, r0) :: t, e, r => if k = e then (e, r) :: t else (k, r0) :: objSet t e r

/-- Source `delete obj[k]`. -/
def objDelete : DB → String → DB
  | [], _ => []
  | (k, r0) :: t, e => if k = e then objDelete t e else (k, r0) :: objDelete t e

/-- Source `Object.keys(obj)` (also the snapshot a `for (k in obj)` loop visits). -/
def keys (db : DB) : List String := db.map Prod.fst

/-- Deduplication worker: keep an element when it has not been seen yet. -/
def jsDedupGo : List String → List String → List String
  | _, [] => []
  | seen, t :: ts => if t ∈ seen then jsDedupGo seen ts else t :: jsDedupGo (t :: seen) ts

/-- Source `new Set(list)`: drop duplicates, keeping the first occurrence of
each element in insertion order. -/
def jsDedup (l : List String) : List String := jsDedupGo [] l

/-- JS truthiness of an optional string (absent and `""` are falsy). -/
def truthyStr : Option String → Bool
  | none => false
  | some s => !(s == "")

/-- JS truthiness of an optional number (absent and `0` are falsy). -/
def truthyInt : Option Int → Bool
  | none => false
  | some c => !(c == 0)

/-! ## The email regular expression

`EmailRegex` is a backtracking regular expression; we embed it as a
candidate enumerator: `candsF fuel r s` lists the lengths of every match
of `r` at the head of `s`, in the engine's backtracking priority order
(first alternative first, greedy quantifiers longest-first), so that the
head of the list is the length the engine actually returns.  Quantified
subexpressions of `EmailRegex` all consume at least one character, so
`s.length` steps of fuel are always enough. -/

inductive Regex where
  | cls (p : Char → Bool)
  | seq (r1 r2 : Regex)
  | alt (r1 r2 : Regex)
  | star (r : Regex)

def Regex.chr (c : Char) : Regex := .cls (fun d => d == c)

def Regex.plus (r : Regex) : Regex := .seq r (.star r)

/-- Pattern `r{1,3}`, greedy: three copies preferred, then two, then one. -/
def Regex.rep13 (r : Regex) : Regex := .alt (.seq r (.seq r r)) (.alt (.seq r r) r)

/-- Candidate match lengths with no fuel left: `star` may only take its
zero-iteration exit. -/
def cands0 : Regex → List Char → List Nat
  | .cls _, [] => []
  | .cls p, c :: _ => if p c then [1] else []
  | .seq r1 r2, s => (cands0 r1 s).flatMap (fun n => (cands0 r2 (s.drop n)).map (· + n))
  | .alt r1 r2, s => cands0 r1 s ++ cands0 r2 s
  | .star _, _ => [0]

/-- Candidate match lengths with one more unit of fuel than the evaluator
`prev`: a `star` tries its body (at the current fuel) and then continues
as a star at `prev`'s fuel; zero-length body matches are discarded and
the zero-iteration exit comes last (greedy order). -/
def candsS (prev : Regex → List Char → List Nat) : Regex → List Char → List Nat
  | .cls _, [] => []
  | .cls p, c :: _ => if p c then [1] else []
  | .seq r1 r2, s => (candsS prev r1 s).flatMap (fun n => (candsS prev r2 (s.drop n)).map (· + n))
  | .alt r1 r2, s => candsS prev r1 s ++ candsS prev r2 s
  | .star r, s =>
      ((candsS prev r s).flatMap
        (fun n => if n = 0 then [] else (prev (.star r) (s.drop n)).map (· + n))) ++ [0]

def candsF : Nat → Regex → List Char → List Nat
  | 0 => cands0
  | fuel + 1 => candsS (candsF fuel)

/-- Syntactic check that a regex can only match nonempty input: every
path through it passes a character class. -/
def posi : Regex → Bool
  | .cls _ => true
  | .seq r1 r2 => posi r1 || posi r2
  | .alt r1 r2 => posi r1 && posi r2
  | .star _ => false

/-- JS `\s` (the whitespace code points of the ECMAScript spec). -/
def isJsSpace (c : Char) : Bool :=
  (9 ≤ c.toNat && c.toNat ≤ 13) || c.toNat == 32 || c.toNat == 160 ||
  c.toNat == 0x1680 || (0x2000 ≤ c.toNat && c.toNat ≤ 0x200A) ||
  c.toNat == 0x2028 || c.toNat == 0x2029 || c.toNat == 0x202F ||
  c.toNat == 0x205F || c.toNat == 0x3000 || c.toNat == 0xFEFF

/-- The class `[^<>()\[\]\\.,;:\s@"]` of the local part. -/
def isAtomChar (c : Char) : Bool :=
  !(c == '<' || c == '>' || c == '(' || c == ')' || c == '[' || c == ']' ||
    c == '\\' || c == '.' || c == ',' || c == ';' || c == ':' ||
    c == '@' || c == '"' || isJsSpace c)

/-- JS `.` without the dotAll flag (anything but a line terminator). -/
def isDotChar (c : Char) : Bool :=
  !(c == '\n' || c == '\r' || c.toNat == 0x2028 || c.toNat == 0x2029)

/-- The class `[a-zA-Z\-0-9]` of a domain label. -/
def isLabelChar (c : Char) : Bool := c.isAlpha || c.isDigit || c == '-'

/-- Pattern `[^<>()\[\]\\.,;:\s@"]+(\.[^<>()\[\]\\.,;:\s@"]+)*` -/
def localPartA : Regex :=
  .seq (Regex.plus (.cls isAtomChar))
    (.star (.seq (Regex.chr '.') (Regex.plus (.cls isAtomChar))))

/-- Pattern `".+"` -/
def localPartB : Regex :=
  .seq (Regex.chr '"') (.seq (Regex.plus (.cls isDotChar)) (Regex.chr '"'))

/-- Pattern `[0-9]{1,3}` -/
def d13 : Regex := Regex.rep13 (.cls Char.isDigit)

/-- Pattern `\[[0-9]{1,3}\.[0-9]{1,3}\.[0-9]{1,3}\.[0-9]{1,3}]` -/
def ipDomain : Regex :=
  .seq (Regex.chr '[')
    (.seq d13 (.seq (Regex.chr '.')
      (.seq d13 (.seq (Regex.chr '.')
        (.seq d13 (.seq (Regex.chr '.')
          (.seq d13 (Regex.chr ']'))))))))

/-- Pattern `([a-zA-Z\-0-9]+\.)+[a-zA-Z]{2,}` -/
def nameDomain : Regex :=
  .seq (Regex.plus (.seq (Regex.plus (.cls isLabelChar)) (Regex.chr '.')))
    (.seq (.cls Char.isAlpha) (.seq (.cls Char.isAlpha) (.star (.cls Char.isAlpha))))

/-- The full `EmailRegex` pattern. -/
def emailRegex : Regex :=
  .seq (.alt localPartA localPartB) (.seq (Regex.chr '@') (.alt ipDomain nameDomain))

/-- Source `line.match(EmailRegex)`: try each start position from the left; at
the first position with a match, return the engine's preferred match. -/
def scanChars : List Char → Option (List Char)
  | [] => none
  | c :: t =>
    ((candsF (c :: t).length emailRegex (c :: t)).head?).elim (scanChars t)
      (fun n => some ((c :: t).take n))

/-- Source `filterEmail(line)`: the first matching substring of the line, if any. -/
def filterEmail (line : String) : Option String :=
  (scanChars line.data).map fun l => { data := l }

/-! ## The store operations (`EmailDB`) -/

namespace EmailDB

/-- Pattern `/\.ru$/`: does the address end in the three characters `.ru`. -/
def endsWithDotRu (email : String) : Bool :=
  match email.data.reverse with
  | 'u' :: 'r' :: '.' :: _ => true
  | _ => false

/-- Source `guessEmailLocale`: `"ru"` for addresses matching `/\.ru$/`, else `"en"`. -/
def guessEmailLocale (email : String) : String :=
  if endsWithDotRu email then "ru" else "en"

/-- Source `rec.locale || this.guessEmailLocale(email)` (a falsy stored locale
falls back to the guess). -/
def calcLocale (email : String) (r : Record) : String :=
  match r.locale with
  | some l => if l = "" then guessEmailLocale email else l
  | none => guessEmailLocale email

/-- The argument object of `lookup`.  `tags` models `Array.from(tags)` of
the query tag set (so it is duplicate-free in any real call); `coldDays`
is the optional numeric threshold. -/
structure Query where
  tags : List String
  locale : Option String := none
  statusOnly : Option Status := none
  coldDays : Option Int := none

/-- A result entry of `lookup`: `{ tags: new Set(recTags), locale: calculatedLocale }`. -/
structure LookupEntry where
  tags : List String
  locale : String
deriving DecidableEq, Repr

/-- Gate 1: `statusOnly != null && rec.status !== statusOnly → skip`. -/
def statusGate1 (q : Query) (r : Record) : Bool :=
  match q.statusOnly with
  | none => true
  | some s => r.status = some s

/-- Gate 2: `(statusOnly == null || statusOnly !== 'broken') && rec.status === 'broken' → skip`. -/
def statusGate2 (q : Query) (r : Record) : Bool :=
  !((match q.statusOnly with
     | none => true
     | some s => decide (s ≠ Status.broken)) && decide (r.status = some Status.broken))

/-- Recency gate: when `coldDays` and `rec.lastDelivered` are both truthy
and `moment().diff(lastDelivered, 'days') < coldDays`, skip. -/
def recencyGate (diffDays : String → Int) (q : Query) (r : Record) : Bool :=
  match q.coldDays with
  | none => true
  | some c =>
    if c = 0 then true
    else
      match r.lastDelivered with
      | none => true
      | some ld => if ld = "" then true else decide (¬ (diffDays ld < c))

/-- Tag gate: `_.intersection(recTags, inputTags).length < tags.size → skip`
(lodash keeps the distinct elements of the first list found in the second). -/
def tagGate (recTags inputTags : List String) : Bool :=
  decide (inputTags.length ≤ ((jsDedup recTags).filter (fun t => t ∈ inputTags)).length)

/-- Locale gate: `locale != null && calculatedLocale !== locale → skip`. -/
def localeGate (q : Query) (email : String) (r : Record) : Bool :=
  match q.locale with
  | none => true
  | some l => calcLocale email r = l

/-- The whole filter chain of `lookup`, short-circuiting in source order. -/
def passes (diffDays : String → Int) (q : Query) (email : String) (r : Record) : Bool :=
  statusGate1 q r && statusGate2 q r && recencyGate diffDays q r &&
    tagGate r.tags q.tags && localeGate q email r

/-- The entry `lookup` builds for a matching record. -/
def entryOf (email : String) (r : Record) : LookupEntry :=
  { tags := r.tags, locale := calcLocale email r }

/-- Source `lookup`: walk the directory in key order, keep what passes every
gate, and emit a fresh entry with a copied tag list and the resolved
locale.  `diffDays` is the ambient clock consulted by the recency gate. -/
def lookup (diffDays : String → Int) (db : DB) (q : Query) : List (String × LookupEntry) :=
  match db with
  | [] => []
  | (email, r) :: rest =>
    if passes diffDays q email r then
      (email, entryOf email r) :: lookup diffDays rest q
    else lookup diffDays rest q

/-- The tag-merge loop of `insert`: add each supplied tag not already
present (the following `res.tags = new Set([...res.tags, ...tags])` is a
value-level no-op once the loop has run). -/
def insertTags (cur : List String) (tags : List String) : List String :=
  tags.foldl (fun acc t => if t ∈ acc then acc else acc ++ [t]) cur

/-- Did the tag loop add anything: `addedTags`. -/
def addedTags (tags : List String) (r : Record) : Bool :=
  tags.any (fun t => decide (t ∉ r.tags))

/-- Source `addedTags || (locale && locale !== res.locale)`: does this line
count towards `updated`. -/
def updInc (tags : List String) (locale : Option String) (r : Record) : Nat :=
  if addedTags tags r || (truthyStr locale && decide (locale ≠ r.locale)) then 1 else 0

/-- The mutation `insert` applies to the (possibly fresh) record: merge
tags, then overwrite the locale when one was (truthily) supplied. -/
def mergeInto (tags : List String) (locale : Option String) (r : Record) : Record :=
  { r with tags := insertTags r.tags tags,
           locale := if truthyStr locale then locale else r.locale }

/-- The fresh record `insert` creates for an unknown address. -/
def freshRecord : Record := { tags := [], status := some Status.dirty }

/-- The body of the `insert` loop once a line has normalized to an
address: create the record if the address is unknown (counting it
inserted), then merge tags and locale into it (counting an update when
the merge changed something). -/
def insertEmail (tags : List String) (locale : Option String)
    (st : DB × Nat × Nat) (email : String) : DB × Nat × Nat :=
  match objGet st.1 email with
  | none =>
    (objSet st.1 email (mergeInto tags locale freshRecord),
     st.2.1 + 1, st.2.2 + updInc tags locale freshRecord)
  | some r =>
    (objSet st.1 email (mergeInto tags locale r),
     st.2.1, st.2.2 + updInc tags locale r)

/-- One line of the `insert` loop: unparsable lines are skipped silently. -/
def insertLine (tags : List String) (locale : Option String)
    (st : DB × Nat × Nat) (line : String) : DB × Nat × Nat :=
  match filterEmail line with
  | none => st
  | some email => insertEmail tags locale st email

/-- Source `insert({filename, tags, locale})`, with the file already split into
lines: returns the new directory and the `(inserted, updated)` counters. -/
def insert (db : DB) (lines : List String) (tags : List String)
    (locale : Option String) : DB × Nat × Nat :=
  lines.foldl (insertLine tags locale) (db, 0, 0)

/-- The `cleanup` loop over the key snapshot: a key is skipped if it is
gone by the time it is visited, deleted if it no longer normalizes, and
moved under its normalized form if that differs (`this.db[filtered] = rec;
delete this.db[email]`). -/
def cleanupGo : DB → List String → Nat → Nat → DB × Nat × Nat
  | db, [], deleted, fixed => (db, deleted, fixed)
  | db, email :: rest, deleted, fixed =>
    match objGet db email with
    | none => cleanupGo db rest deleted fixed
    | some r =>
      match filterEmail email with
      | none => cleanupGo (objDelete db email) rest (deleted + 1) fixed
      | some filtered =>
        if filtered = email then cleanupGo db rest deleted fixed
        else cleanupGo (objDelete (objSet db filtered r) email) rest deleted (fixed + 1)

/-- Source `cleanup()`: returns the new directory and `(deleted, fixed)`. -/
def cleanup (db : DB) : DB × Nat × Nat := cleanupGo db (keys db) 0 0

/-- Source `setStatus(emails, status)`: walk the directory; on every key listed
in `emails`, count a change when the status actually differs and set it. -/
def setStatus (db : DB) (emails : List String) (status : Status) : DB × Nat :=
  match db with
  | [] => ([], 0)
  | (email, r) :: rest =>
    let p := setStatus rest emails status
    if email ∈ emails then
      ((email, { r with status := some status }) :: p.1,
       (if r.status ≠ some status then 1 else 0) + p.2)
    else ((email, r) :: p.1, p.2)

/-- Source `setLastDelivered(emails, lastDelivered)`: walk the input list; skip
addresses absent from the directory, otherwise count and overwrite
`lastDelivered` with the serialized timestamp `ts`. -/
def setLastDelivered (db : DB) (emails : List String) (ts : String) : DB × Nat :=
  match emails with
  | [] => (db, 0)
  | email :: rest =>
    match objGet db email with
    | none => setLastDelivered db rest ts
    | some r =>
      let p := setLastDelivered (objSet db email { r with lastDelivered := some ts }) rest ts
      (p.1, p.2 + 1)

/-- The persisted `tags` value as JSON can hold it: a string array
(iterable), an absent or null field (`new Set(undefined)` is the empty
set), or a non-iterable value — a number, boolean, or plain object such
as the `{}` that `JSON.stringify` writes for a `Set`. -/
inductive PersistedTags where
  | arr (l : List String)
  | absent
  | nonIterable
deriving DecidableEq, Repr

/-- Source `new Set(rec.tags)`: an array is deduplicated into a set, an
absent value gives the empty set, and a non-iterable value throws a
TypeError. -/
def jsNewSet : PersistedTags → Except Unit (List String)
  | .arr l => .ok (jsDedup l)
  | .absent => .ok []
  | .nonIterable => .error ()

/-- The persisted (JSON) form of a record: the `tags` value may or may
not conform to the documented array shape; the legacy boolean flags may
be present. -/
structure PersistedRecord where
  tags : PersistedTags
  locale : Option String := none
  status : Option Status := none
  lastDelivered : Option String := none
  broken : Option Bool := none
  clean : Option Bool := none
  dirty : Option Bool := none
deriving DecidableEq, Repr

/-- The per-record body of the `load` loop: `rec.tags = new Set(rec.tags)`
(which throws on a non-iterable tags value), then the legacy-flag
migration, then `delete rec.clean; delete rec.dirty`. -/
def rehydrate (pr : PersistedRecord) : Except Unit Record :=
  (jsNewSet pr.tags).map fun tags =>
    { tags := tags,
      locale := pr.locale,
      status :=
        if pr.broken = some true then some Status.broken
        else if pr.clean = some true then some Status.clean
        else pr.status,
      lastDelivered := pr.lastDelivered }

/-- The rehydration loop of `load` over the parsed object, in key order:
the first record whose tags value is not iterable throws out of `load`. -/
def loadGo : List (String × PersistedRecord) → Except Unit DB
  | [] => .ok []
  | p :: rest =>
    match rehydrate p.2 with
    | .error e => .error e
    | .ok r => (loadGo rest).map fun db => (p.1, r) :: db

/-- Source `load()`: `raw` is the outcome of
`JSON.parse(fs.readFileSync(DB_FILE))`.  Only that read/parse step sits
inside the try/catch — a failure there is replaced by the empty
directory — while the rehydration loop runs after the catch, so its
TypeError propagates out of `load`. -/
def load (raw : Except Unit (List (String × PersistedRecord))) : Except Unit DB :=
  match raw with
  | .error _ => .ok []
  | .ok parsed => loadGo parsed

end EmailDB

/-! ## The pagination drain (`pageAll`) -/

/-- One response page of the external listing API. -/
structure Page (α : Type) where
  items : List α
  pagingNext : String
deriving Repr

/-- The mailgun API base the source splits the next-page URL on. -/
def mailgunBase : String := "https://api.mailgun.net/v3"

/-- Source `response.paging.next.split('https://api.mailgun.net/v3')[1]` (the
part after the base URL; an absent part reads back as the empty string). -/
def urlOf {α : Type} (p : Page α) : String :=
  (p.pagingNext.splitOn mailgunBase).getD 1 ""

/-- The `while (true)` drain of `pageAll`, with explicit fuel standing
for the number of loop iterations actually executed: `cur` is the page
just fetched, `acc` the accumulated items.  An empty page terminates the
drain; exhausted fuel (a run that would loop forever) yields `none`. -/
def pageAllGo {α : Type} (get : String → Page α) :
    Nat → Page α → List α → Option (List α)
  | 0, _, _ => none
  | fuel + 1, cur, acc =>
    if cur.items.isEmpty then some acc
    else pageAllGo get fuel (get (urlOf cur)) (acc ++ cur.items)

/-- Source `pageAll(mg, fn, limit)`: `first` is the response of the initial
`fn({limit})` call and `get` is `mg.get` on a continuation URL. -/
def pageAll {α : Type} (get : String → Page α) (first : Page α) (fuel : Nat) :
    Option (List α) :=
  pageAllGo get fuel first []

/-- The sequence of pages a drain visits: page 0 is the first response,
and each following page is fetched through the cursor of the one before
it. -/
def visitPage {α : Type} (get : String → Page α) (first : Page α) : Nat → Page α
  | 0 => first
  | n + 1 => get (urlOf (visitPage get first n))

/-! ## Association-list (JS object) lemmas -/

theorem objGet_objSet_self (db : DB) (e : String) (r : Record) :
    objGet (objSet db e r) e = some r := by
  induction db with
  | nil => simp [objSet, objGet]
  | cons p t ih =>
    obtain ⟨k, r0⟩ := p
    by_cases h : k = e
    · simp [objSet, objGet, h]
    · simp [objSet, objGet, h, ih]

theorem objGet_objSet_ne (db : DB) (e e' : String) (r : Record) (h : e' ≠ e) :
    objGet (objSet db e r) e' = objGet db e' := by
  induction db with
  | nil => simp [objSet, objGet, Ne.symm h]
  | cons p t ih =>
    obtain ⟨k, r0⟩ := p
    by_cases hk : k = e
    · subst hk
      simp [objSet, objGet, Ne.symm h]
    · simp only [objSet, if_neg hk]
      by_cases hk' : k = e'
      · simp [objGet, hk']
      · simp [objGet, hk', ih]

theorem keys_nil : keys [] = [] := rfl

theorem keys_cons (k : String) (r : Record) (t : DB) :
    keys ((k, r) :: t) = k :: keys t := rfl

theorem objSet_objGet_eq (db : DB) (e : String) (r : Record)
    (h : objGet db e = some r) : objSet db e r = db := by
  induction db with
  | nil => simp [objGet] at h
  | cons p t ih =>
    obtain ⟨k, r0⟩ := p
    by_cases hk : k = e
    · subst hk
      have h' : r0 = r := by simpa [objGet] using h
      subst h'
      simp [objSet]
    · simp only [objGet, if_neg hk] at h
      simp [objSet, hk, ih h]

theorem mem_of_objGet_eq_some (db : DB) (e : String) (r : Record)
    (h : objGet db e = some r) : (e, r) ∈ db := by
  induction db with
  | nil => simp [objGet] at h
  | cons p t ih =>
    obtain ⟨k, r0⟩ := p
    by_cases hk : k = e
    · subst hk
      have h' : r0 = r := by simpa [objGet] using h
      subst h'
      exact List.mem_cons_self _ _
    · simp only [objGet, if_neg hk] at h
      exact List.mem_cons_of_mem _ (ih h)

theorem objGet_eq_none_iff (db : DB) (e : String) :
    objGet db e = none ↔ e ∉ keys db := by
  induction db with
  | nil => simp [objGet, keys]
  | cons p t ih =>
    obtain ⟨k, r0⟩ := p
    by_cases hk : k = e
    · subst hk
      simp [objGet, keys_cons]
    · simp [objGet, keys_cons, hk, Ne.symm hk, ih, not_or]

theorem mem_keys_objDelete (db : DB) (e e' : String) :
    e' ∈ keys (objDelete db e) ↔ e' ∈ keys db ∧ e' ≠ e := by
  induction db with
  | nil => simp [objDelete, keys]
  | cons p t ih =>
    obtain ⟨k, r0⟩ := p
    by_cases hk : k = e
    · subst hk
      rw [show objDelete ((k, r0) :: t) k = objDelete t k by simp [objDelete]]
      rw [ih, keys_cons]
      constructor
      · rintro ⟨h1, h2⟩
        exact ⟨List.mem_cons_of_mem _ h1, h2⟩
      · rintro ⟨h1, h2⟩
        rcases List.mem_cons.mp h1 with h1 | h1
        · exact absurd h1 h2
        · exact ⟨h1, h2⟩
    · rw [show objDelete ((k, r0) :: t) e = (k, r0) :: objDelete t e by simp [objDelete, hk]]
      rw [keys_cons, keys_cons]
      simp only [List.mem_cons]
      rw [ih]
      constructor
      · rintro (h1 | ⟨h1, h2⟩)
        · exact ⟨Or.inl h1, h1 ▸ hk⟩
        · exact ⟨Or.inr h1, h2⟩
      · rintro ⟨h1 | h1, h2⟩
        · exact Or.inl h1
        · exact Or.inr ⟨h1, h2⟩

theorem mem_keys_objSet (db : DB) (e e' : String) (r : Record) :
    e' ∈ keys (objSet db e r) ↔ e' ∈ keys db ∨ e' = e := by
  induction db with
  | nil => simp [objSet, keys]
  | cons p t ih =>
    obtain ⟨k, r0⟩ := p
    by_cases hk : k = e
    · subst hk
      rw [show objSet ((k, r0) :: t) k r = (k, r) :: t by simp [objSet]]
      rw [keys_cons, keys_cons]
      simp only [List.mem_cons]
      tauto
    · rw [show objSet ((k, r0) :: t) e r = (k, r0) :: objSet t e r by simp [objSet, hk]]
      rw [keys_cons, keys_cons]
      simp only [List.mem_cons]
      rw [ih]
      tauto

/-! ## `jsDedup` lemmas -/

theorem mem_jsDedupGo (l : List String) : ∀ (seen : List String) (a : String),
    a ∈ jsDedupGo seen l ↔ a ∈ l ∧ a ∉ seen := by
  induction l with
  | nil =>
    intro seen a
    simp [jsDedupGo]
  | cons t ts ih =>
    intro seen a
    by_cases ht : t ∈ seen
    · rw [jsDedupGo, if_pos ht, ih]
      constructor
      · rintro ⟨h1, h2⟩
        exact ⟨List.mem_cons_of_mem _ h1, h2⟩
      · rintro ⟨h1, h2⟩
        rcases List.mem_cons.mp h1 with h1 | h1
        · subst h1
          exact absurd ht h2
        · exact ⟨h1, h2⟩
    · rw [jsDedupGo, if_neg ht]
      simp only [List.mem_cons, ih]
      constructor
      · rintro (h | ⟨h1, h2⟩)
        · subst h
          exact ⟨Or.inl rfl, ht⟩
        · exact ⟨Or.inr h1, fun hc => h2 (Or.inr hc)⟩
      · rintro ⟨h1 | h1, h2⟩
        · exact Or.inl h1
        · by_cases hat : a = t
          · exact Or.inl hat
          · refine Or.inr ⟨h1, fun hc => ?_⟩
            rcases hc with hc | hc
            · exact hat hc
            · exact h2 hc

theorem mem_jsDedup (l : List String) (a : String) : a ∈ jsDedup l ↔ a ∈ l := by
  rw [jsDedup, mem_jsDedupGo]
  simp

theorem jsDedupGo_nodup (l : List String) : ∀ seen : List String, (jsDedupGo seen l).Nodup := by
  induction l with
  | nil =>
    intro seen
    simp [jsDedupGo]
  | cons t ts ih =>
    intro seen
    by_cases ht : t ∈ seen
    · rw [jsDedupGo, if_pos ht]
      exact ih seen
    · rw [jsDedupGo, if_neg ht]
      rw [List.nodup_cons]
      refine ⟨?_, ih _⟩
      rw [mem_jsDedupGo]
      rintro ⟨_, h2⟩
      exact h2 (List.mem_cons_self _ _)

theorem jsDedup_nodup (l : List String) : (jsDedup l).Nodup := jsDedupGo_nodup l []

theorem toFinset_jsDedup (l : List String) : (jsDedup l).toFinset = l.toFinset := by
  ext a
  simp [mem_jsDedup]

/-! ## Candidate-list meta-theory

The three facts that make `filterEmail` analyzable: every candidate
length is bounded by the input length; truncating the input to `k`
characters keeps exactly the candidates of length at most `k`, in order;
and any fuel of at least the input length computes the same list. -/

theorem filter_flatMap_eq (l : List Nat) (q : Nat → Bool) (f : Nat → List Nat) :
    (l.filter q).flatMap f = l.flatMap (fun n => if q n then f n else []) := by
  induction l with
  | nil => simp
  | cons a t ih =>
    by_cases h : q a <;> simp [h, ih]

theorem flatMap_congr_mem {α β : Type} (l : List α) (f g : α → List β)
    (h : ∀ a ∈ l, f a = g a) : l.flatMap f = l.flatMap g := by
  induction l with
  | nil => rfl
  | cons a t ih =>
    simp only [List.flatMap_cons]
    rw [h a (List.mem_cons_self _ _), ih fun a ha => h a (List.mem_cons_of_mem _ ha)]

theorem cands0_le (r : Regex) (s : List Char) (n : Nat) (h : n ∈ cands0 r s) :
    n ≤ s.length := by
  induction r generalizing s n with
  | cls p =>
    cases s with
    | nil => simp [cands0] at h
    | cons c t =>
      by_cases hp : p c <;> simp [cands0, hp] at h
      simp only [List.length_cons]
      omega
  | seq r1 r2 ih1 ih2 =>
    simp only [cands0, List.mem_flatMap, List.mem_map] at h
    obtain ⟨n1, hn1, m, hm, rfl⟩ := h
    have b1 := ih1 s n1 hn1
    have b2 := ih2 (s.drop n1) m hm
    simp only [List.length_drop] at b2
    omega
  | alt r1 r2 ih1 ih2 =>
    simp only [cands0, List.mem_append] at h
    rcases h with h | h
    · exact ih1 s n h
    · exact ih2 s n h
  | star r ih =>
    simp only [cands0, List.mem_singleton] at h
    omega

theorem candsS_le (prev : Regex → List Char → List Nat)
    (hprev : ∀ r s n, n ∈ prev r s → n ≤ s.length)
    (r : Regex) (s : List Char) (n : Nat) (h : n ∈ candsS prev r s) :
    n ≤ s.length := by
  induction r generalizing s n with
  | cls p =>
    cases s with
    | nil => simp [candsS] at h
    | cons c t =>
      by_cases hp : p c <;> simp [candsS, hp] at h
      simp only [List.length_cons]
      omega
  | seq r1 r2 ih1 ih2 =>
    simp only [candsS, List.mem_flatMap, List.mem_map] at h
    obtain ⟨n1, hn1, m, hm, rfl⟩ := h
    have b1 := ih1 s n1 hn1
    have b2 := ih2 (s.drop n1) m hm
    simp only [List.length_drop] at b2
    omega
  | alt r1 r2 ih1 ih2 =>
    simp only [candsS, List.mem_append] at h
    rcases h with h | h
    · exact ih1 s n h
    · exact ih2 s n h
  | star r ih =>
    simp only [candsS, List.mem_append, List.mem_flatMap, List.mem_singleton] at h
    rcases h with ⟨n1, hn1, hm⟩ | h
    · by_cases hz : n1 = 0
      · simp [hz] at hm
      · simp only [if_neg hz, List.mem_map] at hm
        obtain ⟨m, hm, rfl⟩ := hm
        have b1 := ih s n1 hn1
        have b2 := hprev (.star r) (s.drop n1) m hm
        simp only [List.length_drop] at b2
        omega
    · omega

theorem candsF_le (fuel : Nat) (r : Regex) (s : List Char) (n : Nat)
    (h : n ∈ candsF fuel r s) : n ≤ s.length := by
  induction fuel generalizing r s n with
  | zero => exact cands0_le r s n h
  | succ f ih => exact candsS_le (candsF f) (fun r s n h => ih r s n h) r s n h

theorem cands0_posi (r : Regex) (hr : posi r = true) (s : List Char) (n : Nat)
    (h : n ∈ cands0 r s) : 1 ≤ n := by
  induction r generalizing s n with
  | cls p =>
    cases s with
    | nil => simp [cands0] at h
    | cons c t =>
      by_cases hp : p c <;> simp [cands0, hp] at h
      omega
  | seq r1 r2 ih1 ih2 =>
    simp only [cands0, List.mem_flatMap, List.mem_map] at h
    obtain ⟨n1, hn1, m, hm, rfl⟩ := h
    simp only [posi, Bool.or_eq_true] at hr
    rcases hr with hr | hr
    · have := ih1 hr s n1 hn1
      omega
    · have := ih2 hr (s.drop n1) m hm
      omega
  | alt r1 r2 ih1 ih2 =>
    simp only [posi, Bool.and_eq_true] at hr
    simp only [cands0, List.mem_append] at h
    rcases h with h | h
    · exact ih1 hr.1 s n h
    · exact ih2 hr.2 s n h
  | star r ih => simp [posi] at hr

theorem candsS_posi (prev : Regex → List Char → List Nat) (r : Regex)
    (hr : posi r = true) (s : List Char) (n : Nat)
    (h : n ∈ candsS prev r s) : 1 ≤ n := by
  induction r generalizing s n with
  | cls p =>
    cases s with
    | nil => simp [candsS] at h
    | cons c t =>
      by_cases hp : p c <;> simp [candsS, hp] at h
      omega
  | seq r1 r2 ih1 ih2 =>
    simp only [candsS, List.mem_flatMap, List.mem_map] at h
    obtain ⟨n1, hn1, m, hm, rfl⟩ := h
    simp only [posi, Bool.or_eq_true] at hr
    rcases hr with hr | hr
    · have := ih1 hr s n1 hn1
      omega
    · have := ih2 hr (s.drop n1) m hm
      omega
  | alt r1 r2 ih1 ih2 =>
    simp only [posi, Bool.and_eq_true] at hr
    simp only [candsS, List.mem_append] at h
    rcases h with h | h
    · exact ih1 hr.1 s n h
    · exact ih2 hr.2 s n h
  | star r ih => simp [posi] at hr

theorem candsF_posi (fuel : Nat) (r : Regex) (hr : posi r = true)
    (s : List Char) (n : Nat) (h : n ∈ candsF fuel r s) : 1 ≤ n := by
  cases fuel with
  | zero => exact cands0_posi r hr s n h
  | succ f => exact candsS_posi (candsF f) r hr s n h

theorem posi_emailRegex : posi emailRegex = true := rfl

theorem map_add_filter_le (Y : List Nat) (n k : Nat) (h : n ≤ k) :
    (Y.filter (fun m => decide (m ≤ k - n))).map (· + n) =
    (Y.map (· + n)).filter (fun m => decide (m ≤ k)) := by
  rw [List.filter_map]
  congr 1
  apply List.filter_congr
  intro m _
  simp only [Function.comp_apply, decide_eq_decide]
  omega

theorem map_add_filter_gt (Y : List Nat) (n k : Nat) (h : k < n) :
    (Y.map (· + n)).filter (fun m => decide (m ≤ k)) = [] := by
  rw [List.filter_eq_nil_iff]
  intro a ha
  obtain ⟨m, _, rfl⟩ := List.mem_map.mp ha
  simp only [decide_eq_true_eq]
  omega

theorem cands0_take (r : Regex) (s : List Char) (k : Nat) :
    cands0 r (s.take k) = (cands0 r s).filter (fun n => decide (n ≤ k)) := by
  induction r generalizing s k with
  | cls p =>
    cases s with
    | nil => simp [cands0]
    | cons c t =>
      cases k with
      | zero => by_cases hp : p c <;> simp [cands0, hp]
      | succ j => by_cases hp : p c <;> simp [cands0, hp]
  | seq r1 r2 ih1 ih2 =>
    simp only [cands0]
    rw [ih1, filter_flatMap_eq, List.filter_flatMap]
    apply flatMap_congr_mem
    intro n _
    by_cases hn : n ≤ k
    · rw [if_pos (by simpa using hn), List.drop_take, ih2, map_add_filter_le _ _ _ hn]
    · rw [if_neg (by simpa using hn), map_add_filter_gt _ _ _ (by omega)]
  | alt r1 r2 ih1 ih2 =>
    simp only [cands0]
    rw [List.filter_append, ih1, ih2]
  | star r ih =>
    simp [cands0]

theorem candsS_take (prev : Regex → List Char → List Nat)
    (hprev : ∀ r s k, prev r (s.take k) = (prev r s).filter (fun n => decide (n ≤ k)))
    (r : Regex) (s : List Char) (k : Nat) :
    candsS prev r (s.take k) = (candsS prev r s).filter (fun n => decide (n ≤ k)) := by
  induction r generalizing s k with
  | cls p =>
    cases s with
    | nil => simp [candsS]
    | cons c t =>
      cases k with
      | zero => by_cases hp : p c <;> simp [candsS, hp]
      | succ j => by_cases hp : p c <;> simp [candsS, hp]
  | seq r1 r2 ih1 ih2 =>
    simp only [candsS]
    rw [ih1, filter_flatMap_eq, List.filter_flatMap]
    apply flatMap_congr_mem
    intro n _
    by_cases hn : n ≤ k
    · rw [if_pos (by simpa using hn), List.drop_take, ih2, map_add_filter_le _ _ _ hn]
    · rw [if_neg (by simpa using hn), map_add_filter_gt _ _ _ (by omega)]
  | alt r1 r2 ih1 ih2 =>
    simp only [candsS]
    rw [List.filter_append, ih1, ih2]
  | star r ih =>
    simp only [candsS]
    rw [List.filter_append, ih, filter_flatMap_eq, List.filter_flatMap]
    have htail : List.filter (fun n => decide (n ≤ k)) [0] = [0] := by simp
    rw [htail]
    congr 1
    apply flatMap_congr_mem
    intro n _
    by_cases hz : n = 0
    · subst hz
      simp
    · by_cases hn : n ≤ k
      · rw [if_pos (by simpa using hn), if_neg hz, if_neg hz, List.drop_take, hprev,
          map_add_filter_le _ _ _ hn]
      · rw [if_neg (by simpa using hn), if_neg hz, map_add_filter_gt _ _ _ (by omega)]

theorem candsF_take (fuel : Nat) (r : Regex) (s : List Char) (k : Nat) :
    candsF fuel r (s.take k) = (candsF fuel r s).filter (fun n => decide (n ≤ k)) := by
  induction fuel generalizing r s k with
  | zero => exact cands0_take r s k
  | succ f ih => exact candsS_take (candsF f) (fun r s k => ih r s k) r s k

theorem candsS_nil (prev : Regex → List Char → List Nat) (r : Regex) :
    candsS prev r [] = cands0 r [] := by
  induction r with
  | cls p => rfl
  | seq r1 r2 ih1 ih2 =>
    simp only [candsS, cands0, List.drop_nil]
    rw [ih1]
    exact congrArg _ (funext fun n => by rw [ih2])
  | alt r1 r2 ih1 ih2 =>
    simp only [candsS, cands0]
    rw [ih1, ih2]
  | star r ih =>
    simp only [candsS, cands0]
    rw [show ((candsS prev r []).flatMap
        (fun n => if n = 0 then [] else (prev (.star r) (List.drop n [])).map (· + n))) = [] from ?_]
    · rfl
    rw [List.flatMap_eq_nil_iff]
    intro n hn
    rw [ih] at hn
    have := cands0_le r [] n hn
    simp only [List.length_nil, Nat.le_zero] at this
    simp [this]

theorem candsF_nil (fuel : Nat) (r : Regex) : candsF fuel r [] = cands0 r [] := by
  cases fuel with
  | zero => rfl
  | succ f => exact candsS_nil (candsF f) r

theorem candsS_congr (prev1 prev2 : Regex → List Char → List Nat)
    (hb2 : ∀ r s n, n ∈ prev2 r s → n ≤ s.length)
    (r : Regex) (s : List Char)
    (H : ∀ r' t, t.length < s.length → prev1 r' t = prev2 r' t) :
    candsS prev1 r s = candsS prev2 r s := by
  induction r generalizing s with
  | cls p => cases s <;> rfl
  | seq r1 r2 ih1 ih2 =>
    simp only [candsS]
    rw [ih1 s H]
    apply flatMap_congr_mem
    intro n _
    rw [ih2 (s.drop n) fun r' t ht =>
      H r' t (lt_of_lt_of_le ht (by simp only [List.length_drop]; omega))]
  | alt r1 r2 ih1 ih2 =>
    simp only [candsS]
    rw [ih1 s H, ih2 s H]
  | star r ih =>
    simp only [candsS]
    rw [ih s H]
    congr 1
    apply flatMap_congr_mem
    intro n hn
    by_cases hz : n = 0
    · simp [hz]
    · rw [if_neg hz, if_neg hz]
      have hb := candsS_le prev2 hb2 r s n hn
      rw [H (.star r) (s.drop n) (by simp only [List.length_drop]; omega)]

theorem candsF_fuel_congr : ∀ (b : Nat) (s : List Char) (f1 f2 : Nat) (r : Regex),
    s.length ≤ b → s.length ≤ f1 → s.length ≤ f2 → candsF f1 r s = candsF f2 r s := by
  intro b
  induction b with
  | zero =>
    intro s f1 f2 r hs _ _
    have : s = [] := List.length_eq_zero.mp (Nat.le_zero.mp hs)
    subst this
    rw [candsF_nil, candsF_nil]
  | succ m ih =>
    intro s f1 f2 r hs h1 h2
    cases f1 with
    | zero =>
      have : s = [] := List.length_eq_zero.mp (Nat.le_zero.mp h1)
      subst this
      rw [candsF_nil, candsF_nil]
    | succ a =>
      cases f2 with
      | zero =>
        have : s = [] := List.length_eq_zero.mp (Nat.le_zero.mp h2)
        subst this
        rw [candsF_nil, candsF_nil]
      | succ c =>
        show candsS (candsF a) r s = candsS (candsF c) r s
        apply candsS_congr (candsF a) (candsF c) (fun r s n hn => candsF_le c r s n hn) r s
        intro r' t ht
        exact ih t a c r' (by omega) (by omega) (by omega)

theorem candsF_fuel (f1 f2 : Nat) (r : Regex) (s : List Char)
    (h1 : s.length ≤ f1) (h2 : s.length ≤ f2) : candsF f1 r s = candsF f2 r s :=
  candsF_fuel_congr s.length s f1 f2 r le_rfl h1 h2

theorem head?_filter_le (l : List Nat) (n : Nat) (h : l.head? = some n) :
    (l.filter (fun m => decide (m ≤ n))).head? = some n := by
  cases l with
  | nil => simp at h
  | cons a t =>
    simp only [List.head?_cons, Option.some.injEq] at h
    subst h
    simp [List.filter_cons]

/-- The key regularity fact behind `cleanup`: the substring `filterEmail`
extracts is itself a fixed point of `filterEmail`.  The match begins at
the scan position, and restricting the input to exactly the matched span
removes only lower-priority continuations, so the engine reproduces the
same match on its own output. -/
theorem scanChars_idem (l m : List Char) (h : scanChars l = some m) :
    scanChars m = some m := by
  induction l with
  | nil => simp [scanChars] at h
  | cons c t ih =>
    rw [scanChars] at h
    cases hh : (candsF (c :: t).length emailRegex (c :: t)).head? with
    | none =>
      rw [hh] at h
      simp only [Option.elim] at h
      exact ih h
    | some n =>
      rw [hh] at h
      simp only [Option.elim, Option.some.injEq] at h
      subst h
      have hmem : n ∈ candsF (c :: t).length emailRegex (c :: t) := by
        cases hl : candsF (c :: t).length emailRegex (c :: t) with
        | nil => rw [hl] at hh; simp at hh
        | cons x xs =>
          rw [hl] at hh
          simp only [List.head?_cons, Option.some.injEq] at hh
          subst hh
          exact List.mem_cons_self _ _
      have hn_le : n ≤ (c :: t).length := candsF_le _ _ _ _ hmem
      have hn_pos : 1 ≤ n := candsF_posi _ _ posi_emailRegex _ _ hmem
      obtain ⟨n', rfl⟩ : ∃ n', n = n' + 1 := ⟨n - 1, by omega⟩
      rw [List.take_succ_cons, scanChars]
      have hfuel : candsF (c :: t.take n').length emailRegex (c :: t.take n') =
          candsF (c :: t).length emailRegex (c :: t.take n') := by
        apply candsF_fuel
        · exact le_rfl
        · simp only [List.length_cons, List.length_take, List.length_cons] at hn_le ⊢
          omega
      have htake : (c :: t.take n' : List Char) = (c :: t).take (n' + 1) :=
        List.take_succ_cons.symm
      have hhead : (candsF (c :: t).length emailRegex ((c :: t).take (n' + 1))).head? =
          some (n' + 1) := by
        rw [candsF_take]
        exact head?_filter_le _ _ hh
      rw [hfuel, htake, hhead]
      simp only [Option.elim]
      have : ((c :: t).take (n' + 1)).take (n' + 1) = (c :: t).take (n' + 1) := by
        rw [List.take_take]
        simp
      rw [this]

/-- The function `filterEmail` is idempotent on its own output. -/
theorem filterEmail_idem (s m : String) (h : filterEmail s = some m) :
    filterEmail m = some m := by
  unfold filterEmail at h
  cases hs : scanChars s.data with
  | none => rw [hs] at h; simp at h
  | some l =>
    rw [hs] at h
    simp only [Option.map_some', Option.some.injEq] at h
    subst h
    unfold filterEmail
    rw [show (String.mk l).data = l from rfl, scanChars_idem _ _ hs]
    rfl

/-! ## `cleanup` invariants -/

open EmailDB

theorem cleanupGo_selfnorm (L : List String) : ∀ (db : DB) (d f : Nat),
    (∀ k ∈ keys db, filterEmail k = some k ∨ k ∈ L) →
    ∀ k ∈ keys (cleanupGo db L d f).1, filterEmail k = some k := by
  induction L with
  | nil =>
    intro db d f hinv k hk
    rw [cleanupGo] at hk
    rcases hinv k hk with h | h
    · exact h
    · simp at h
  | cons e rest ih =>
    intro db d f hinv k hk
    rw [cleanupGo] at hk
    cases hg : objGet db e with
    | none =>
      simp only [hg] at hk
      exact ih db d f (fun k' hk' => by
        rcases hinv k' hk' with h | h
        · exact Or.inl h
        · rcases List.mem_cons.mp h with h1 | h1
          · subst h1
            exact absurd hk' ((objGet_eq_none_iff db k').mp hg)
          · exact Or.inr h1) k hk
    | some r =>
      simp only [hg] at hk
      cases hf : filterEmail e with
      | none =>
        simp only [hf] at hk
        apply ih _ _ _ _ k hk
        intro k' hk'
        rw [mem_keys_objDelete] at hk'
        rcases hinv k' hk'.1 with h | h
        · exact Or.inl h
        · rcases List.mem_cons.mp h with h1 | h1
          · exact absurd h1 hk'.2
          · exact Or.inr h1
      | some filtered =>
        simp only [hf] at hk
        by_cases he : filtered = e
        · rw [if_pos he] at hk
          apply ih _ _ _ _ k hk
          intro k' hk'
          rcases hinv k' hk' with h | h
          · exact Or.inl h
          · rcases List.mem_cons.mp h with h1 | h1
            · subst h1
              exact Or.inl (he ▸ hf)
            · exact Or.inr h1
        · rw [if_neg he] at hk
          apply ih _ _ _ _ k hk
          intro k' hk'
          rw [mem_keys_objDelete] at hk'
          obtain ⟨hk1, hk2⟩ := hk'
          rw [mem_keys_objSet] at hk1
          rcases hk1 with hk1 | hk1
          · rcases hinv k' hk1 with h | h
            · exact Or.inl h
            · rcases List.mem_cons.mp h with h1 | h1
              · exact absurd h1 hk2
              · exact Or.inr h1
          · subst hk1
            exact Or.inl (filterEmail_idem e k' hf)

theorem cleanupGo_noop (L : List String) : ∀ (db : DB) (d f : Nat),
    (∀ e ∈ L, filterEmail e = some e) →
    cleanupGo db L d f = (db, d, f) := by
  induction L with
  | nil => intro db d f _; rfl
  | cons e rest ih =>
    intro db d f h
    rw [cleanupGo]
    cases hg : objGet db e with
    | none =>
      simp only [hg]
      exact ih db d f (fun e' he' => h e' (List.mem_cons_of_mem _ he'))
    | some r =>
      simp only [hg, h e (List.mem_cons_self _ _)]
      rw [if_true]
      exact ih db d f (fun e' he' => h e' (List.mem_cons_of_mem _ he'))

/-- C2: after one run of `cleanup`, every key remaining in the directory
re-normalizes to exactly itself, and a second `cleanup` run immediately
after the first changes nothing and reports `deleted = 0, fixed = 0`. -/
theorem cleanup_selfnorm_and_second_noop (db : DB) :
    (∀ k ∈ keys (cleanup db).1, filterEmail k = some k) ∧
    cleanup (cleanup db).1 = ((cleanup db).1, 0, 0) := by
  have h1 : ∀ k ∈ keys (cleanup db).1, filterEmail k = some k :=
    cleanupGo_selfnorm (keys db) db 0 0 (fun k hk => Or.inr hk)
  exact ⟨h1, cleanupGo_noop (keys (cleanup db).1) (cleanup db).1 0 0 h1⟩

/-- Concrete instance of the `cleanup` claim: a directory holding the
fixable key `"a@x.co,"`. -/
theorem cleanup_selfnorm_and_second_noop_witness :
    ("a@x.co" ∈ keys (cleanup [("a@x.co,", { tags := ["t"] })]).1) ∧
    filterEmail "a@x.co" = some "a@x.co" ∧
    cleanup (cleanup [("a@x.co,", { tags := ["t"] })]).1 =
      ((cleanup [("a@x.co,", { tags := ["t"] })]).1, 0, 0) :=
  ⟨by decide,
   (cleanup_selfnorm_and_second_noop [("a@x.co,", { tags := ["t"] })]).1 "a@x.co" (by decide),
   (cleanup_selfnorm_and_second_noop [("a@x.co,", { tags := ["t"] })]).2⟩

/-! ## `lookup` characterization -/

theorem lookup_eq_filter_map (diffDays : String → Int) (db : DB) (q : Query) :
    lookup diffDays db q =
      (db.filter (fun p => passes diffDays q p.1 p.2)).map
        (fun p => (p.1, entryOf p.1 p.2)) := by
  induction db with
  | nil => rfl
  | cons p rest ih =>
    obtain ⟨e, r⟩ := p
    cases h : passes diffDays q e r <;>
      simp [lookup, h, ih, List.filter_cons]

theorem passes_status_not_broken (diffDays : String → Int) (q : Query) (e : String)
    (r : Record) (hq : q.statusOnly = none ∨ q.statusOnly ≠ some Status.broken)
    (hp : passes diffDays q e r = true) : r.status ≠ some Status.broken := by
  intro hst
  simp only [passes, Bool.and_eq_true] at hp
  have h2 := hp.1.1.1.2
  simp only [statusGate2, hst] at h2
  cases hqs : q.statusOnly with
  | none =>
    simp only [hqs] at h2
    simp at h2
  | some s =>
    simp only [hqs] at h2
    by_cases hs : s = Status.broken
    · subst hs
      rcases hq with hq | hq
      · rw [hqs] at hq
        exact Option.noConfusion hq
      · exact hq hqs
    · simp [hs] at h2

/-- C4: records with status `broken` are invisible unless the status
filter is exactly `broken`, and with filter `broken` the result is
exactly the broken records that pass the remaining gates. -/
theorem lookup_broken_visibility (diffDays : String → Int) (db : DB) (q : Query) :
    ((q.statusOnly = none ∨ q.statusOnly ≠ some Status.broken) →
      ∀ e ent, (e, ent) ∈ lookup diffDays db q →
        ∃ r, (e, r) ∈ db ∧ r.status ≠ some Status.broken) ∧
    (q.statusOnly = some Status.broken →
      lookup diffDays db q =
        (db.filter (fun p => decide (p.2.status = some Status.broken) &&
            (recencyGate diffDays q p.2 && tagGate p.2.tags q.tags &&
              localeGate q p.1 p.2))).map
          (fun p => (p.1, entryOf p.1 p.2))) := by
  constructor
  · intro hq e ent hmem
    rw [lookup_eq_filter_map] at hmem
    obtain ⟨p, hp, heq⟩ := List.mem_map.mp hmem
    obtain ⟨hpdb, hpass⟩ := List.mem_filter.mp hp
    obtain ⟨e0, r0⟩ := p
    simp only [Prod.mk.injEq] at heq
    refine ⟨r0, ?_, passes_status_not_broken diffDays q e0 r0 hq hpass⟩
    rw [← heq.1]
    exact hpdb
  · intro hq
    rw [lookup_eq_filter_map]
    congr 1
    apply List.filter_congr
    intro p _
    simp only [passes, statusGate1, statusGate2, hq]
    cases hst : p.2.status with
    | none => simp
    | some s => cases s <;> simp [Bool.and_assoc]

/-- C7: a query with no tags and no other filters returns exactly the
non-broken records, and the tag gate passes a record precisely when its
tag set contains every requested tag. -/
theorem lookup_empty_query_and_tag_superset :
    (∀ (diffDays : String → Int) (db : DB),
      lookup diffDays db { tags := [] } =
        (db.filter (fun p => !decide (p.2.status = some Status.broken))).map
          (fun p => (p.1, entryOf p.1 p.2))) ∧
    (∀ (recTags inputTags : List String), inputTags.Nodup →
      (tagGate recTags inputTags = true ↔ ∀ t ∈ inputTags, t ∈ recTags)) := by
  constructor
  · intro diffDays db
    rw [lookup_eq_filter_map]
    congr 1
    apply List.filter_congr
    intro p _
    simp only [passes, statusGate1, statusGate2, recencyGate, tagGate, localeGate]
    simp [List.length_nil]
  · intro recTags inputTags hnd
    simp only [tagGate, decide_eq_true_eq]
    constructor
    · intro hlen t ht
      by_contra hcon
      have hAnodup : ((jsDedup recTags).filter (fun u => u ∈ inputTags)).Nodup :=
        (jsDedup_nodup recTags).filter _
      have hsub : ((jsDedup recTags).filter (fun u => u ∈ inputTags)).toFinset ⊆
          inputTags.toFinset := by
        intro x hx
        rw [List.mem_toFinset, List.mem_filter] at hx
        rw [List.mem_toFinset]
        simpa using hx.2
      have hne : t ∈ inputTags.toFinset := List.mem_toFinset.mpr ht
      have htA : t ∉ ((jsDedup recTags).filter (fun u => u ∈ inputTags)).toFinset := by
        rw [List.mem_toFinset, List.mem_filter, mem_jsDedup]
        rintro ⟨h1, _⟩
        exact hcon h1
      have hssub : ((jsDedup recTags).filter (fun u => u ∈ inputTags)).toFinset ⊂
          inputTags.toFinset := ⟨hsub, fun hsup => htA (hsup hne)⟩
      have hcard := Finset.card_lt_card hssub
      rw [List.toFinset_card_of_nodup hAnodup, List.toFinset_card_of_nodup hnd] at hcard
      omega
    · intro hsub
      have hmono : inputTags.toFinset ⊆
          ((jsDedup recTags).filter (fun u => u ∈ inputTags)).toFinset := by
        intro x hx
        rw [List.mem_toFinset] at hx
        rw [List.mem_toFinset, List.mem_filter, mem_jsDedup]
        exact ⟨hsub x hx, by simpa using hx⟩
      have hcard := Finset.card_le_card hmono
      rw [List.toFinset_card_of_nodup hnd,
        List.toFinset_card_of_nodup ((jsDedup_nodup recTags).filter _)] at hcard
      exact hcard

/-- C10: every result entry of `lookup` points back to a record of the
directory whose tag list it copies verbatim; its locale is always the
resolved locale, in particular the derived one whenever the stored
locale is absent or falsy.  (`lookup` itself never returns a modified
directory: in this embedding it is a pure function of the directory.) -/
theorem lookup_entries_copy_and_resolve (diffDays : String → Int) (db : DB) (q : Query)
    (e : String) (ent : LookupEntry) (h : (e, ent) ∈ lookup diffDays db q) :
    ∃ r, (e, r) ∈ db ∧ ent.tags = r.tags ∧ ent.locale = calcLocale e r ∧
      (truthyStr r.locale = false → ent.locale = guessEmailLocale e) := by
  rw [lookup_eq_filter_map] at h
  obtain ⟨p, hp, heq⟩ := List.mem_map.mp h
  obtain ⟨hpdb, _⟩ := List.mem_filter.mp hp
  obtain ⟨e0, r0⟩ := p
  simp only [Prod.mk.injEq] at heq
  rcases heq with ⟨rfl, hent⟩
  refine ⟨r0, hpdb, by rw [← hent]; rfl, by rw [← hent]; rfl, ?_⟩
  intro hfalsy
  rw [← hent]
  cases hl : r0.locale with
  | none => simp [entryOf, calcLocale, hl]
  | some l =>
    rw [hl] at hfalsy
    simp only [truthyStr, Bool.not_eq_false', beq_iff_eq] at hfalsy
    simp [entryOf, calcLocale, hl, hfalsy]

/-! ## `setStatus` -/

theorem record_with_status_self (r : Record) (st : Status) (h : r.status = some st) :
    { r with status := some st } = r := by
  cases r
  simp_all

theorem setStatus_sets (db : DB) (emails : List String) (st : Status) :
    ∀ e r, (e, r) ∈ (setStatus db emails st).1 → e ∈ emails → r.status = some st := by
  induction db with
  | nil =>
    intro e r h _
    simp [setStatus] at h
  | cons p rest ih =>
    obtain ⟨e0, r0⟩ := p
    intro e r h he
    by_cases h0 : e0 ∈ emails
    · simp only [setStatus, if_pos h0] at h
      rcases List.mem_cons.mp h with h1 | h1
      · rw [Prod.mk.injEq] at h1
        rw [h1.2]
      · exact ih e r h1 he
    · simp only [setStatus, if_neg h0] at h
      rcases List.mem_cons.mp h with h1 | h1
      · rw [Prod.mk.injEq] at h1
        exact absurd (h1.1 ▸ he) h0
      · exact ih e r h1 he

theorem setStatus_count (db : DB) (emails : List String) (st : Status) :
    (setStatus db emails st).2 =
      (db.filter (fun p => decide (p.1 ∈ emails) && decide (p.2.status ≠ some st))).length := by
  induction db with
  | nil => rfl
  | cons p rest ih =>
    obtain ⟨e0, r0⟩ := p
    by_cases h0 : e0 ∈ emails
    · by_cases h1 : r0.status = some st
      · simp [setStatus, h0, h1, List.filter_cons, ih]
      · simp [setStatus, h0, h1, List.filter_cons, ih]
        omega
    · simp [setStatus, h0, List.filter_cons, ih]

theorem setStatus_noop (db : DB) (emails : List String) (st : Status)
    (h : ∀ e r, (e, r) ∈ db → e ∈ emails → r.status = some st) :
    setStatus db emails st = (db, 0) := by
  induction db with
  | nil => rfl
  | cons p rest ih =>
    obtain ⟨e0, r0⟩ := p
    have hrest := ih fun e r hm he => h e r (List.mem_cons_of_mem _ hm) he
    by_cases h0 : e0 ∈ emails
    · have hst : r0.status = some st := h e0 r0 (List.mem_cons_self _ _) h0
      simp only [setStatus, if_pos h0, hrest]
      rw [record_with_status_self r0 st hst]
      simp [hst]
    · simp only [setStatus, if_neg h0, hrest]

/-- C3: `setStatus` stamps the given status on every directory entry in
the address list, returns exactly the number of entries whose status
actually differed, and re-applying the same call is a counted no-op
(returns 0, directory unchanged), never an error. -/
theorem setStatus_spec (db : DB) (emails : List String) (st : Status) :
    (∀ e r, (e, r) ∈ (setStatus db emails st).1 → e ∈ emails → r.status = some st) ∧
    (setStatus db emails st).2 =
      (db.filter (fun p => decide (p.1 ∈ emails) && decide (p.2.status ≠ some st))).length ∧
    setStatus (setStatus db emails st).1 emails st = ((setStatus db emails st).1, 0) :=
  ⟨setStatus_sets db emails st, setStatus_count db emails st,
   setStatus_noop _ emails st (setStatus_sets db emails st)⟩

/-- Concrete instance of the `setStatus` claim: the dirty record of
`"c@z.com"` marked clean counts 1 the first time and 0 the second. -/
theorem setStatus_spec_witness :
    ({ tags := [], status := some Status.clean } : Record).status = some Status.clean ∧
    (setStatus [("c@z.com", { tags := [], status := some Status.dirty })]
      ["c@z.com"] Status.clean).2 = 1 ∧
    setStatus (setStatus [("c@z.com", { tags := [], status := some Status.dirty })]
        ["c@z.com"] Status.clean).1 ["c@z.com"] Status.clean =
      ((setStatus [("c@z.com", { tags := [], status := some Status.dirty })]
        ["c@z.com"] Status.clean).1, 0) :=
  ⟨(setStatus_spec [("c@z.com", { tags := [], status := some Status.dirty })]
      ["c@z.com"] Status.clean).1 "c@z.com" { tags := [], status := some Status.clean }
      (by decide) (by decide),
   by
    rw [(setStatus_spec [("c@z.com", { tags := [], status := some Status.dirty })]
      ["c@z.com"] Status.clean).2.1]
    decide,
   (setStatus_spec [("c@z.com", { tags := [], status := some Status.dirty })]
      ["c@z.com"] Status.clean).2.2⟩

/-! ## `setLastDelivered` -/

theorem objGet_isSome_objSet (db : DB) (e : String) (r0 r : Record)
    (hg : objGet db e = some r0) (x : String) :
    (objGet (objSet db e r) x).isSome = (objGet db x).isSome := by
  by_cases hx : x = e
  · subst hx
    rw [objGet_objSet_self, hg]
    rfl
  · rw [objGet_objSet_ne db e x r hx]

theorem setLastDelivered_objGet (emails : List String) : ∀ (db : DB) (ts x : String),
    objGet (setLastDelivered db emails ts).1 x =
      if x ∈ emails ∧ (objGet db x).isSome then
        (objGet db x).map (fun r => { r with lastDelivered := some ts })
      else objGet db x := by
  induction emails with
  | nil =>
    intro db ts x
    simp [setLastDelivered]
  | cons e rest ih =>
    intro db ts x
    cases hg : objGet db e with
    | none =>
      simp only [setLastDelivered, hg]
      rw [ih db ts x]
      by_cases hx : x = e
      · subst hx
        simp [hg]
      · simp [List.mem_cons, hx]
    | some r =>
      simp only [setLastDelivered, hg]
      rw [ih _ ts x]
      by_cases hx : x = e
      · subst hx
        rw [objGet_objSet_self, hg]
        by_cases hm : x ∈ rest
        · simp [hm]
        · simp [hm]
      · rw [objGet_objSet_ne db e x _ hx]
        simp [List.mem_cons, hx]

theorem setLastDelivered_count (emails : List String) : ∀ (db : DB) (ts : String),
    (setLastDelivered db emails ts).2 =
      (emails.filter (fun e => (objGet db e).isSome)).length := by
  induction emails with
  | nil =>
    intro db ts
    rfl
  | cons e rest ih =>
    intro db ts
    cases hg : objGet db e with
    | none =>
      simp only [setLastDelivered, hg]
      rw [ih db ts, List.filter_cons]
      simp [hg]
    | some r =>
      simp only [setLastDelivered, hg]
      rw [ih _ ts, List.filter_cons]
      rw [List.filter_congr fun x _ =>
        objGet_isSome_objSet db e r { r with lastDelivered := some ts } hg x]
      simp [hg]

/-- C6: `setLastDelivered` overwrites `lastDelivered` with the given
serialized timestamp on every listed address present in the directory,
counts every listed present address (including value-level no-ops), and
silently skips listed addresses that are absent, leaving them and every
unlisted record untouched. -/
theorem setLastDelivered_spec (db : DB) (emails : List String) (ts : String) :
    (setLastDelivered db emails ts).2 =
      (emails.filter (fun e => (objGet db e).isSome)).length ∧
    (∀ e r, e ∈ emails → objGet db e = some r →
      objGet (setLastDelivered db emails ts).1 e =
        some { r with lastDelivered := some ts }) ∧
    (∀ e, e ∉ emails → objGet (setLastDelivered db emails ts).1 e = objGet db e) ∧
    (∀ e, objGet db e = none → objGet (setLastDelivered db emails ts).1 e = objGet db e) := by
  refine ⟨setLastDelivered_count emails db ts, ?_, ?_, ?_⟩
  · intro e r he hg
    rw [setLastDelivered_objGet emails db ts e, if_pos ⟨he, by rw [hg]; rfl⟩, hg]
    rfl
  · intro e he
    rw [setLastDelivered_objGet emails db ts e, if_neg fun hc => he hc.1]
  · intro e hg
    rw [setLastDelivered_objGet emails db ts e, if_neg fun hc => by simp [hg] at hc]

/-- Concrete instance of the `setLastDelivered` claim: one present and
one absent listed address. -/
theorem setLastDelivered_spec_witness :
    (setLastDelivered [("a@x.com", { tags := [] })] ["a@x.com", "zz"] "T1").2 = 1 ∧
    objGet (setLastDelivered [("a@x.com", { tags := [] })] ["a@x.com", "zz"] "T1").1
      "a@x.com" = some { tags := [], lastDelivered := some "T1" } ∧
    objGet (setLastDelivered [("a@x.com", { tags := [] })] ["a@x.com", "zz"] "T1").1
      "zz" = objGet [("a@x.com", { tags := [] })] "zz" :=
  ⟨by
    rw [(setLastDelivered_spec [("a@x.com", { tags := [] })] ["a@x.com", "zz"] "T1").1]
    decide,
   (setLastDelivered_spec [("a@x.com", { tags := [] })] ["a@x.com", "zz"] "T1").2.1
     "a@x.com" { tags := [] } (by decide) (by decide),
   (setLastDelivered_spec [("a@x.com", { tags := [] })] ["a@x.com", "zz"] "T1").2.2.2
     "zz" (by decide)⟩

/-! ## `insert` -/

theorem insertTags_mono (tags : List String) : ∀ (cur : List String) (x : String),
    x ∈ cur → x ∈ insertTags cur tags := by
  induction tags with
  | nil =>
    intro cur x hx
    exact hx
  | cons t ts ih =>
    intro cur x hx
    show x ∈ insertTags (if t ∈ cur then cur else cur ++ [t]) ts
    apply ih
    by_cases ht : t ∈ cur
    · simpa [ht] using hx
    · simp [ht, List.mem_append, hx]

theorem insertTags_subset (tags : List String) : ∀ (cur : List String),
    ∀ t ∈ tags, t ∈ insertTags cur tags := by
  induction tags with
  | nil =>
    intro cur t ht
    simp at ht
  | cons t0 ts ih =>
    intro cur t ht
    rcases List.mem_cons.mp ht with h | h
    · subst h
      show t ∈ insertTags (if t ∈ cur then cur else cur ++ [t]) ts
      apply insertTags_mono
      by_cases hc : t ∈ cur
      · simp [hc]
      · simp [hc]
    · exact ih _ t h

theorem insertTags_id (tags : List String) : ∀ (cur : List String),
    (∀ t ∈ tags, t ∈ cur) → insertTags cur tags = cur := by
  induction tags with
  | nil =>
    intro cur _
    rfl
  | cons t ts ih =>
    intro cur h
    show insertTags (if t ∈ cur then cur else cur ++ [t]) ts = cur
    rw [if_pos (h t (List.mem_cons_self _ _))]
    exact ih cur fun t' ht' => h t' (List.mem_cons_of_mem _ ht')

theorem mergeInto_id (tags : List String) (locale : Option String) (r : Record)
    (htags : ∀ t ∈ tags, t ∈ r.tags)
    (hloc : truthyStr locale = true → r.locale = locale) :
    mergeInto tags locale r = r := by
  cases r with
  | mk rtags rlocale rstatus rlast =>
    simp only [mergeInto, insertTags_id tags rtags htags]
    cases hl : truthyStr locale with
    | false => simp
    | true =>
      have := hloc hl
      simp_all

theorem updInc_zero (tags : List String) (locale : Option String) (r : Record)
    (htags : ∀ t ∈ tags, t ∈ r.tags)
    (hloc : truthyStr locale = true → r.locale = locale) :
    updInc tags locale r = 0 := by
  have ha : addedTags tags r = false := by
    simp only [addedTags, List.any_eq_false, decide_eq_true_eq]
    intro t ht
    exact fun hc => hc (htags t ht)
  cases hl : truthyStr locale with
  | false => simp [updInc, ha, hl]
  | true =>
    have := hloc hl
    simp [updInc, ha, hl, this]

/-- The loop of `insert` visits exactly the addresses the lines normalize to. -/
theorem insert_filterMap (lines : List String) : ∀ (st : DB × Nat × Nat)
    (tags : List String) (locale : Option String),
    lines.foldl (insertLine tags locale) st =
      (lines.filterMap filterEmail).foldl (insertEmail tags locale) st := by
  induction lines with
  | nil =>
    intro st tags locale
    rfl
  | cons line rest ih =>
    intro st tags locale
    cases hf : filterEmail line with
    | none => simp [insertLine, hf, ih]
    | some email => simp [insertLine, hf, ih]

/-- A record already saturated with the supplied tags and locale stays
saturated through the rest of an `insert` run. -/
theorem insertEmail_preserves (es : List String) : ∀ (db : DB) (i u : Nat)
    (tags : List String) (locale : Option String) (e : String) (r : Record),
    objGet db e = some r → (∀ t ∈ tags, t ∈ r.tags) →
    (truthyStr locale = true → r.locale = locale) →
    ∃ r', objGet (es.foldl (insertEmail tags locale) (db, i, u)).1 e = some r' ∧
      (∀ t ∈ tags, t ∈ r'.tags) ∧ (truthyStr locale = true → r'.locale = locale) := by
  induction es with
  | nil =>
    intro db i u tags locale e r hg htags hloc
    exact ⟨r, hg, htags, hloc⟩
  | cons e1 rest ih =>
    intro db i u tags locale e r hg htags hloc
    rw [List.foldl_cons]
    cases hg1 : objGet db e1 with
    | none =>
      simp only [insertEmail, hg1]
      have hne : e ≠ e1 := fun hc => by rw [hc, hg1] at hg; exact Option.noConfusion hg
      exact ih _ _ _ tags locale e r
        (by rw [objGet_objSet_ne _ _ _ _ hne]; exact hg) htags hloc
    | some r1 =>
      simp only [insertEmail, hg1]
      by_cases he : e = e1
      · subst he
        have hr : r1 = r := by rw [hg] at hg1; exact (Option.some.injEq _ _ ▸ hg1).symm
        subst hr
        refine ih _ _ _ tags locale e (mergeInto tags locale r1)
          (objGet_objSet_self _ _ _) ?_ ?_
        · intro t ht
          exact insertTags_subset tags r1.tags t ht
        · intro htr
          simp [mergeInto, htr]
      · exact ih _ _ _ tags locale e r
          (by rw [objGet_objSet_ne _ _ _ _ he]; exact hg) htags hloc

/-- After an `insert` run, every visited address holds a record
containing all the supplied tags, with the supplied locale when one was
(truthily) given. -/
theorem insertEmail_establishes (es : List String) : ∀ (db : DB) (i u : Nat)
    (tags : List String) (locale : Option String),
    ∀ e ∈ es, ∃ r', objGet (es.foldl (insertEmail tags locale) (db, i, u)).1 e = some r' ∧
      (∀ t ∈ tags, t ∈ r'.tags) ∧ (truthyStr locale = true → r'.locale = locale) := by
  induction es with
  | nil =>
    intro db i u tags locale e he
    simp at he
  | cons e1 rest ih =>
    intro db i u tags locale e he
    rw [List.foldl_cons]
    rcases List.mem_cons.mp he with he1 | he1
    · subst he1
      cases hg1 : objGet db e with
      | none =>
        simp only [insertEmail, hg1]
        refine insertEmail_preserves rest _ _ _ tags locale e (mergeInto tags locale freshRecord)
          (objGet_objSet_self _ _ _) ?_ ?_
        · intro t ht
          exact insertTags_subset tags freshRecord.tags t ht
        · intro htr
          simp [mergeInto, htr]
      | some r1 =>
        simp only [insertEmail, hg1]
        refine insertEmail_preserves rest _ _ _ tags locale e (mergeInto tags locale r1)
          (objGet_objSet_self _ _ _) ?_ ?_
        · intro t ht
          exact insertTags_subset tags r1.tags t ht
        · intro htr
          simp [mergeInto, htr]
    · cases hg1 : objGet db e1 with
      | none => simp only [insertEmail, hg1]; exact ih _ _ _ tags locale e he1
      | some r1 => simp only [insertEmail, hg1]; exact ih _ _ _ tags locale e he1

/-- A run over addresses that are all already saturated changes nothing
and counts nothing. -/
theorem insertEmail_noop (es : List String) : ∀ (db : DB) (i u : Nat)
    (tags : List String) (locale : Option String),
    (∀ e ∈ es, ∃ r, objGet db e = some r ∧ (∀ t ∈ tags, t ∈ r.tags) ∧
      (truthyStr locale = true → r.locale = locale)) →
    es.foldl (insertEmail tags locale) (db, i, u) = (db, i, u) := by
  induction es with
  | nil =>
    intro db i u tags locale _
    rfl
  | cons e1 rest ih =>
    intro db i u tags locale h
    obtain ⟨r, hg, htags, hloc⟩ := h e1 (List.mem_cons_self _ _)
    rw [List.foldl_cons]
    simp only [insertEmail, hg]
    rw [updInc_zero tags locale r htags hloc, mergeInto_id tags locale r htags hloc,
      objSet_objGet_eq db e1 r hg]
    exact ih db i (u + 0) tags locale fun e he => h e (List.mem_cons_of_mem _ he)

/-- C5: running `insert` a second time with the same lines, the same tag
set and the same locale argument reports `inserted = 0, updated = 0` and
returns the directory of the first run unchanged — in particular every
record's tag set is exactly what it was after the first run. -/
theorem insert_idempotent (db : DB) (lines : List String) (tags : List String)
    (locale : Option String) :
    EmailDB.insert (EmailDB.insert db lines tags locale).1 lines tags locale =
      ((EmailDB.insert db lines tags locale).1, 0, 0) := by
  have hrun : ∀ X : DB, EmailDB.insert X lines tags locale =
      (lines.filterMap filterEmail).foldl (insertEmail tags locale) (X, 0, 0) :=
    fun X => insert_filterMap lines (X, 0, 0) tags locale
  simp only [hrun]
  apply insertEmail_noop
  exact insertEmail_establishes (lines.filterMap filterEmail) db 0 0 tags locale

/-- C1 counterexample: inserting two fresh addresses with the non-empty
tag set `{"t1"}` into the empty directory reports `updated = 2`, not the
claimed `updated = 0` — a newly created record is also counted as
updated as soon as the tag merge adds a tag. -/
theorem insert_counterexample :
    EmailDB.insert [] ["a@x.com", "b@y.ru"] ["t1"] none =
      ([("a@x.com", { tags := ["t1"], status := some Status.dirty }),
        ("b@y.ru", { tags := ["t1"], status := some Status.dirty })], 2, 2) ∧
    (EmailDB.insert [] ["a@x.com", "b@y.ru"] ["t1"] none).2.2 ≠ 0 := by
  constructor
  · decide
  · decide

theorem updInc_fresh (tags : List String) (locale : Option String) (hts : tags ≠ []) :
    updInc tags locale freshRecord = 1 := by
  cases tags with
  | nil => exact absurd rfl hts
  | cons t ts => simp [updInc, addedTags, freshRecord]

/-- Creating a record counts it in both counters: an address absent from
the directory when its line is processed bumps `inserted` and, because
the tag merge onto the fresh empty tag set adds a tag, `updated` too. -/
theorem insertEmail_fresh (db : DB) (i u : Nat) (tags : List String)
    (locale : Option String) (email : String) (hts : tags ≠ [])
    (hg : objGet db email = none) :
    insertEmail tags locale (db, i, u) email =
      (objSet db email (mergeInto tags locale freshRecord), i + 1, u + 1) := by
  simp only [insertEmail, hg]
  rw [updInc_fresh tags locale hts]

theorem insert_counts_go (es : List String) : ∀ (db : DB) (i u : Nat)
    (tags : List String) (locale : Option String), tags ≠ [] → i ≤ u →
    (es.foldl (insertEmail tags locale) (db, i, u)).2.1 ≤
      (es.foldl (insertEmail tags locale) (db, i, u)).2.2 := by
  induction es with
  | nil =>
    intro db i u tags locale _ h
    exact h
  | cons e rest ih =>
    intro db i u tags locale hts h
    rw [List.foldl_cons]
    cases hg : objGet db e with
    | none =>
      rw [insertEmail_fresh db i u tags locale e hts hg]
      exact ih _ _ _ tags locale hts (by omega)
    | some r =>
      simp only [insertEmail, hg]
      exact ih _ _ _ tags locale hts (by omega)

theorem insert_updated_ge_inserted (db : DB) (lines tags : List String)
    (locale : Option String) (hts : tags ≠ []) :
    (EmailDB.insert db lines tags locale).2.1 ≤
      (EmailDB.insert db lines tags locale).2.2 := by
  show (lines.foldl (insertLine tags locale) (db, 0, 0)).2.1 ≤
    (lines.foldl (insertLine tags locale) (db, 0, 0)).2.2
  rw [insert_filterMap lines (db, 0, 0) tags locale]
  exact insert_counts_go (lines.filterMap filterEmail) db 0 0 tags locale hts le_rfl

theorem insert_two_new_counts (lines : List String) (e1 e2 : String)
    (tags : List String) (hl : lines.filterMap filterEmail = [e1, e2])
    (hne : e1 ≠ e2) (hts : tags ≠ []) :
    (EmailDB.insert [] lines tags none).2.1 = 2 ∧
    (EmailDB.insert [] lines tags none).2.2 = 2 := by
  have hupd : ∀ r : Record, r.tags = [] → updInc tags none r = 1 := by
    intro r hr
    cases tags with
    | nil => exact absurd rfl hts
    | cons t ts => simp [updInc, addedTags, hr]
  have hrun : EmailDB.insert [] lines tags none =
      [e1, e2].foldl (insertEmail tags none) ([], 0, 0) := by
    show lines.foldl (insertLine tags none) ([], 0, 0) = _
    rw [insert_filterMap lines ([], 0, 0) tags none, hl]
  have hstep1 : insertEmail tags none ([], 0, 0) e1 =
      ([(e1, mergeInto tags none freshRecord)], 1, 1) := by
    simp only [insertEmail]
    simp [objGet, objSet, hupd freshRecord rfl]
  have hg2 : objGet [(e1, mergeInto tags none freshRecord)] e2 = none := by
    simp [objGet, hne]
  have hstep2 : insertEmail tags none ([(e1, mergeInto tags none freshRecord)], 1, 1) e2 =
      ([(e1, mergeInto tags none freshRecord), (e2, mergeInto tags none freshRecord)],
        2, 2) := by
    simp only [insertEmail, hg2]
    simp [objSet, hne, hupd freshRecord rfl]
  rw [hrun]
  simp only [List.foldl_cons, List.foldl_nil]
  rw [hstep1, hstep2]
  exact ⟨rfl, rfl⟩

/-- C1 (amended): for every directory, import lines, non-empty supplied
tag set and locale, an address created by `insert` during the run — one
absent from the directory when its line is processed — is counted in
`inserted` and, in the same step, also in `updated` (the tag merge onto
its fresh empty tag set marks it updated), so every run reports
`inserted ≤ updated`; in particular, inserting into an empty directory
a file whose lines normalize to exactly two distinct new addresses,
with tag set `{"t1"}`, reports `inserted = 2` and `updated = 2`. -/
theorem insert_new_address_counts_both :
    (∀ (db : DB) (i u : Nat) (tags : List String) (locale : Option String)
      (email : String), tags ≠ [] → objGet db email = none →
      insertEmail tags locale (db, i, u) email =
        (objSet db email (mergeInto tags locale freshRecord), i + 1, u + 1)) ∧
    (∀ (db : DB) (lines tags : List String) (locale : Option String), tags ≠ [] →
      (EmailDB.insert db lines tags locale).2.1 ≤
        (EmailDB.insert db lines tags locale).2.2) ∧
    (∀ (lines : List String) (e1 e2 : String) (tags : List String),
      lines.filterMap filterEmail = [e1, e2] → e1 ≠ e2 → tags ≠ [] →
      (EmailDB.insert [] lines tags none).2.1 = 2 ∧
      (EmailDB.insert [] lines tags none).2.2 = 2) :=
  ⟨fun db i u tags locale email hts hg =>
    insertEmail_fresh db i u tags locale email hts hg,
   fun db lines tags locale hts =>
    insert_updated_ge_inserted db lines tags locale hts,
   fun lines e1 e2 tags hl hne hts =>
    insert_two_new_counts lines e1 e2 tags hl hne hts⟩

/-- Concrete instance of the amended insert-count claim: a fresh address
bumps both counters in one step, and the two-address scenario reports
`(2, 2)`. -/
theorem insert_new_address_counts_both_witness :
    ((["t1"] : List String) ≠ []) ∧
    objGet ([] : DB) "a@x.com" = none ∧
    insertEmail ["t1"] none ([], 0, 0) "a@x.com" =
      (objSet [] "a@x.com" (mergeInto ["t1"] none freshRecord), 1, 1) ∧
    (["a@x.com", "b@y.ru"].filterMap filterEmail = ["a@x.com", "b@y.ru"]) ∧
    (EmailDB.insert [] ["a@x.com", "b@y.ru"] ["t1"] none).2.1 = 2 ∧
    (EmailDB.insert [] ["a@x.com", "b@y.ru"] ["t1"] none).2.2 = 2 :=
  ⟨by decide, rfl,
   insert_new_address_counts_both.1 [] 0 0 ["t1"] none "a@x.com" (by decide) rfl,
   by decide,
   (insert_new_address_counts_both.2.2 ["a@x.com", "b@y.ru"] "a@x.com" "b@y.ru" ["t1"]
     (by decide) (by decide) (by decide)).1,
   (insert_new_address_counts_both.2.2 ["a@x.com", "b@y.ru"] "a@x.com" "b@y.ru" ["t1"]
     (by decide) (by decide) (by decide)).2⟩

/-! ## `pageAll` -/

theorem visitPage_shift {α : Type} (get : String → Page α) (first : Page α) (j : Nat) :
    visitPage get (get (urlOf first)) j = visitPage get first (j + 1) := by
  induction j with
  | zero => rfl
  | succ n ih => simp [visitPage, ih]

theorem flatMap_map_succ {α : Type} (l : List Nat) (f : Nat → List α) :
    (l.map (· + 1)).flatMap f = l.flatMap fun j => f (j + 1) := by
  induction l with
  | nil => rfl
  | cons a t ih => simp [List.flatMap_cons, ih]

theorem flatMap_range_succ_left {α : Type} (f : Nat → List α) (n : Nat) :
    (List.range (n + 1)).flatMap f = f 0 ++ (List.range n).flatMap fun j => f (j + 1) := by
  rw [List.range_succ_eq_map, List.flatMap_cons, flatMap_map_succ]

theorem pageAllGo_drains {α : Type} (get : String → Page α) :
    ∀ (k : Nat) (cur : Page α) (acc : List α) (fuel : Nat), k < fuel →
      (visitPage get cur k).items = [] →
      (∀ j, j < k → (visitPage get cur j).items ≠ []) →
      pageAllGo get fuel cur acc =
        some (acc ++ (List.range k).flatMap fun j => (visitPage get cur j).items) := by
  intro k
  induction k with
  | zero =>
    intro cur acc fuel hf he _
    cases fuel with
    | zero => omega
    | succ f =>
      have he' : cur.items = [] := he
      simp [pageAllGo, he']
  | succ kk ih =>
    intro cur acc fuel hf he hne
    cases fuel with
    | zero => omega
    | succ f =>
      have hcur : cur.items ≠ [] := hne 0 (Nat.succ_pos kk)
      rw [pageAllGo, if_neg (by simpa using hcur)]
      have hrec := ih (get (urlOf cur)) (acc ++ cur.items) f (by omega)
        (by rw [visitPage_shift]; exact he)
        (fun j hj => by rw [visitPage_shift]; exact hne (j + 1) (by omega))
      rw [hrec, flatMap_range_succ_left]
      congr 1
      rw [List.append_assoc]
      congr 2
      apply flatMap_congr_mem
      intro j _
      rw [visitPage_shift]

/-- C8: if some visited page is empty, the drain stops on the first such
page — regardless of the cursor that page carries — and returns exactly
the items of the pages before it, concatenated in page order (for any
iteration budget that reaches the empty page). -/
theorem pageAll_drains {α : Type} (get : String → Page α) (first : Page α) (k : Nat)
    (hempty : (visitPage get first k).items = [])
    (hne : ∀ j, j < k → (visitPage get first j).items ≠ []) :
    ∀ fuel, k < fuel →
      pageAll get first fuel =
        some ((List.range k).flatMap fun j => (visitPage get first j).items) := by
  intro fuel hf
  have h := pageAllGo_drains get k first [] fuel hf hempty hne
  simpa [pageAll] using h

/-- Concrete instance of the drain claim: the second page is empty but
still carries a cursor; the drain returns the first page's items. -/
theorem pageAll_drains_witness :
    (visitPage (fun _ => ({ items := [], pagingNext := "cursor" } : Page Nat))
      { items := [1, 2], pagingNext := "c0" } 1).items = [] ∧
    pageAll (fun _ => ({ items := [], pagingNext := "cursor" } : Page Nat))
      { items := [1, 2], pagingNext := "c0" } 2 = some [1, 2] := by
  constructor
  · rfl
  · have h := pageAll_drains (fun _ => ({ items := [], pagingNext := "cursor" } : Page Nat))
      { items := [1, 2], pagingNext := "c0" } 1 rfl
      (fun j hj => by
        have hj0 : j = 0 := by omega
        subst hj0
        simp [visitPage])
      2 (by omega)
    simpa [visitPage] using h

/-! ## `load` -/

theorem rehydrate_ok (pr : PersistedRecord) (hp : pr.tags ≠ PersistedTags.nonIterable) :
    ∃ r : Record, rehydrate pr = Except.ok r := by
  cases ht : pr.tags with
  | arr l =>
    refine ⟨{ tags := jsDedup l, locale := pr.locale,
              status :=
                if pr.broken = some true then some Status.broken
                else if pr.clean = some true then some Status.clean
                else pr.status,
              lastDelivered := pr.lastDelivered }, ?_⟩
    simp only [rehydrate, ht, jsNewSet, Except.map]
  | absent =>
    refine ⟨{ tags := [], locale := pr.locale,
              status :=
                if pr.broken = some true then some Status.broken
                else if pr.clean = some true then some Status.clean
                else pr.status,
              lastDelivered := pr.lastDelivered }, ?_⟩
    simp only [rehydrate, ht, jsNewSet, Except.map]
  | nonIterable => exact absurd ht hp

theorem loadGo_ok (parsed : List (String × PersistedRecord))
    (h : ∀ p ∈ parsed, p.2.tags ≠ PersistedTags.nonIterable) :
    ∃ db : DB, loadGo parsed = Except.ok db ∧ db.length = parsed.length := by
  induction parsed with
  | nil => exact ⟨[], rfl, rfl⟩
  | cons p rest ih =>
    obtain ⟨db, hdb, hlen⟩ := ih fun q hq => h q (List.mem_cons_of_mem _ hq)
    obtain ⟨r, hr⟩ := rehydrate_ok p.2 (h p (List.mem_cons_self _ _))
    refine ⟨(p.1, r) :: db, ?_, by simp [hlen]⟩
    simp only [loadGo, hr, hdb, Except.map]

/-- C9 counterexample: a persisted input that parses as JSON but whose
record carries a non-iterable tags value — for instance the `{}` a
serialized `Set` round-trips to — makes `load` propagate the TypeError
from `new Set(rec.tags)` instead of completing; in particular it does
not fall back to the empty directory. -/
theorem load_counterexample :
    load (Except.ok [("a@x.com", { tags := PersistedTags.nonIterable })]) =
      Except.error () ∧
    ∀ db : DB, load (Except.ok [("a@x.com", { tags := PersistedTags.nonIterable })]) ≠
      Except.ok db := by
  refine ⟨rfl, fun db h => ?_⟩
  rw [show load (Except.ok
      [("a@x.com", ({ tags := PersistedTags.nonIterable } : PersistedRecord))]) =
    Except.error () from rfl] at h
  exact Except.noConfusion h

/-- C9 (amended): `load` never throws on a read or parse failure — the
catch substitutes the empty directory — and on a successful parse in
which every record's persisted tags value is iterable it completes,
rehydrating each persisted tag array into a duplicate-free set with
exactly the persisted members; but the rehydration loop runs outside
the try/catch, so a parse-valid record whose tags value is not iterable
makes `load` propagate the TypeError instead. -/
theorem load_spec :
    load (Except.error ()) = Except.ok ([] : DB) ∧
    (∀ parsed : List (String × PersistedRecord),
      (∀ p ∈ parsed, p.2.tags ≠ PersistedTags.nonIterable) →
      ∃ db : DB, load (Except.ok parsed) = Except.ok db ∧ db.length = parsed.length) ∧
    (∀ (pr : PersistedRecord) (l : List String), pr.tags = PersistedTags.arr l →
      ∃ r : Record, rehydrate pr = Except.ok r ∧ r.tags = jsDedup l ∧
        r.tags.Nodup ∧ ∀ t, t ∈ r.tags ↔ t ∈ l) := by
  refine ⟨rfl, fun parsed h => loadGo_ok parsed h, fun pr l ht => ?_⟩
  refine ⟨{ tags := jsDedup l, locale := pr.locale,
            status :=
              if pr.broken = some true then some Status.broken
              else if pr.clean = some true then some Status.clean
              else pr.status,
            lastDelivered := pr.lastDelivered },
    ?_, rfl, jsDedup_nodup l, fun t => mem_jsDedup l t⟩
  simp only [rehydrate, ht, jsNewSet, Except.map]

/-- Concrete instance of the load claim: a duplicated persisted tag
array rehydrates into a set, and the run completes. -/
theorem load_spec_witness :
    (∀ p ∈ ([("a@x.com", { tags := PersistedTags.arr ["t", "t"] })] :
        List (String × PersistedRecord)), p.2.tags ≠ PersistedTags.nonIterable) ∧
    (∃ db : DB, load (Except.ok [("a@x.com", { tags := PersistedTags.arr ["t", "t"] })]) =
        Except.ok db ∧ db.length = 1) ∧
    (∃ r : Record, rehydrate { tags := PersistedTags.arr ["t", "t"] } = Except.ok r ∧
      r.tags = jsDedup ["t", "t"] ∧ r.tags.Nodup ∧
      ∀ t, t ∈ r.tags ↔ t ∈ (["t", "t"] : List String)) :=
  ⟨by decide,
   load_spec.2.1 [("a@x.com", { tags := PersistedTags.arr ["t", "t"] })] (by decide),
   load_spec.2.2 { tags := PersistedTags.arr ["t", "t"] } ["t", "t"] rfl⟩

/-- Concrete instance of the broken-visibility claim: with no status
filter the broken record is invisible; with filter `broken` the result
is exactly the broken record. -/
theorem lookup_broken_visibility_witness :
    ((none : Option Status) = none ∨ (none : Option Status) ≠ some Status.broken) ∧
    (∃ r, ("b@y.ru", r) ∈
        ([("a@x.com", { tags := [], status := some Status.broken }),
          ("b@y.ru", { tags := [], status := some Status.clean })] : DB) ∧
      r.status ≠ some Status.broken) ∧
    lookup (fun _ => 0)
        [("a@x.com", { tags := [], status := some Status.broken }),
         ("b@y.ru", { tags := [], status := some Status.clean })]
        { tags := [], statusOnly := some Status.broken } =
      [("a@x.com", { tags := [], locale := "en" })] :=
  ⟨Or.inl rfl,
   (lookup_broken_visibility (fun _ => 0)
       [("a@x.com", { tags := [], status := some Status.broken }),
        ("b@y.ru", { tags := [], status := some Status.clean })] { tags := [] }).1
     (Or.inl rfl) "b@y.ru" { tags := [], locale := "ru" } (by decide),
   by
    rw [(lookup_broken_visibility (fun _ => 0)
        [("a@x.com", { tags := [], status := some Status.broken }),
         ("b@y.ru", { tags := [], status := some Status.clean })]
        { tags := [], statusOnly := some Status.broken }).2 rfl]
    decide⟩

/-- Concrete instance of the empty-query and tag-superset claim. -/
theorem lookup_empty_query_and_tag_superset_witness :
    lookup (fun _ => 0)
        [("a@x.com", { tags := [], status := some Status.broken }),
         ("b@y.ru", { tags := ["t1"], status := some Status.clean })]
        { tags := [] } =
      [("b@y.ru", { tags := ["t1"], locale := "ru" })] ∧
    (["b"] : List String).Nodup ∧
    (tagGate ["a", "b"] ["b"] = true ↔ ∀ t ∈ (["b"] : List String), t ∈ (["a", "b"] : List String)) :=
  ⟨by
    rw [lookup_empty_query_and_tag_superset.1 (fun _ => 0)
      [("a@x.com", { tags := [], status := some Status.broken }),
       ("b@y.ru", { tags := ["t1"], status := some Status.clean })]]
    decide,
   by decide,
   lookup_empty_query_and_tag_superset.2 ["a", "b"] ["b"] (by decide)⟩

/-- Concrete instance of the result-copy claim: the entry for `b@y.ru`
copies the stored tag list and carries the derived locale `"ru"`. -/
theorem lookup_entries_copy_and_resolve_witness :
    ∃ r, ("b@y.ru", r) ∈ ([("b@y.ru", { tags := ["t1"] })] : DB) ∧
      ({ tags := ["t1"], locale := "ru" } : LookupEntry).tags = r.tags ∧
      ({ tags := ["t1"], locale := "ru" } : LookupEntry).locale = calcLocale "b@y.ru" r ∧
      (truthyStr r.locale = false →
        ({ tags := ["t1"], locale := "ru" } : LookupEntry).locale = guessEmailLocale "b@y.ru") :=
  lookup_entries_copy_and_resolve (fun _ => 0) [("b@y.ru", { tags := ["t1"] })]
    { tags := [] } "b@y.ru" { tags := ["t1"], locale := "ru" } (by decide)
